import Mathlib

/-!
# Verification of the symphra-cache backend engine

Shallow embedding of the symphra-cache repository (Python) in Lean 4:

* `PyVal` models Python values as stored in the cache (including Python
  `None`, which the backends return both for a genuine miss and for a
  stored `None`).
* `MemoryBackend` (src/symphra_cache/backends/memory.py) — an ordered
  association list models the `OrderedDict[key, (value, expires_at)]`:
  head of the list is the oldest (LRU) end, the tail is the
  most-recently-used end.  `move_to_end` removes the binding and appends
  it, `popitem(last=False)` drops the head.
* `FileBackend` (src/symphra_cache/backends/file.py) — the logical
  content of the SQLite table `cache_entries`; rows are kept in rowid
  (insertion) order, the codec is modelled as the identity on `PyVal`
  (serialize/deserialize round-trip).
* `DLock` (src/symphra_cache/locks.py) — the distributed lock over a
  `CacheManager`, which delegates `get`/`set`/`delete` verbatim to its
  backend (src/symphra_cache/manager.py), here a `MemoryBackend`.

Wall-clock time (`time.time()`) is modelled as a `Nat` parameter `now`
passed to every operation that reads the clock; TTLs are naturals.
-/

set_option autoImplicit false

namespace Symphra

/-- A Python value as stored in a cache entry.  `PyVal.pynone` models the
Python `None` object; `get` returns it both on a miss and when the stored
value is `None`. -/
inductive PyVal where
  | pynone : PyVal
  | pyint : Int → PyVal
  | pystr : String → PyVal
  deriving DecidableEq

/-- A cache entry of the memory backend: `(value, expires_at)`;
`expires_at = none` means the entry never expires. -/
abbrev Entry := PyVal × Option Nat

/-- The `OrderedDict` of `MemoryBackend`: head = oldest (LRU end),
tail = most recently used. -/
abbrev Cache := List (String × Entry)

/-- `key in self._cache`. -/
def containsKey (c : Cache) (k : String) : Bool :=
  c.any (fun p => p.1 == k)

/-- `self._cache[key]` (the first binding of `k`, if any). -/
def lookupEntry (c : Cache) (k : String) : Option Entry :=
  match c with
  | [] => none
  | p :: rest => if p.1 == k then some p.2 else lookupEntry rest k

/-- `del self._cache[key]`. -/
def eraseKey (c : Cache) (k : String) : Cache :=
  c.filter (fun p => p.1 ≠ k)

/-- `self._cache[key] = e`: replace the binding in place if the key is
present, otherwise append at the most-recently-used end. -/
def dictAssign (c : Cache) (k : String) (e : Entry) : Cache :=
  if containsKey c k then c.map (fun p => if p.1 = k then (k, e) else p)
  else c ++ [(k, e)]

/-- `self._cache.move_to_end(key)`. -/
def moveToEnd (c : Cache) (k : String) : Cache :=
  match lookupEntry c k with
  | some e => eraseKey c k ++ [(k, e)]
  | none => c

/-- State of a `MemoryBackend`.  `stopCleanup` models the
`self._stop_cleanup` threading `Event` that the background sweep thread
polls; it starts unset and the sweep loop runs until it is set. -/
structure MemoryBackend where
  maxSize : Nat
  cache : Cache
  stopCleanup : Bool
  deriving DecidableEq

/-- `MemoryBackend.__init__`: empty `OrderedDict`, stop event unset
(the cleanup thread is started running). -/
def MemoryBackend.mkInit (maxSize : Nat) : MemoryBackend :=
  { maxSize := maxSize, cache := [], stopCleanup := false }

/-- `MemoryBackend.get` (memory.py lines 88-128): miss → `None`;
expired (`time.time() > expires_at`, strictly) → lazy delete, `None`;
otherwise move to the MRU end and return the value. -/
def memGet (st : MemoryBackend) (now : Nat) (key : String) :
    PyVal × MemoryBackend :=
  match lookupEntry st.cache key with
  | none => (PyVal.pynone, st)
  | some (v, expiresAt) =>
    match expiresAt with
    | some e =>
      if now > e then (PyVal.pynone, { st with cache := eraseKey st.cache key })
      else (v, { st with cache := moveToEnd st.cache key })
    | none => (v, { st with cache := moveToEnd st.cache key })

/-- The liveness test of the `nx` branch of `MemoryBackend.set`
(memory.py lines 175-179): a binding exists and
`expires_at is None or time.time() <= expires_at`.  This is also the
glossary notion of a *live* entry for the memory engine: `get` treats an
entry as expired exactly when `now > expires_at`. -/
def liveEntryExists (c : Cache) (now : Nat) (k : String) : Bool :=
  match lookupEntry c k with
  | some (_, none) => true
  | some (_, some e) => now ≤ e
  | none => false

/-- The position/eviction step of `MemoryBackend.set` (memory.py lines
184-189): existing key → `move_to_end` (no eviction); new key at
capacity → `popitem(last=False)` (drop the LRU head). -/
def touchOrEvict (st : MemoryBackend) (key : String) : Cache :=
  if containsKey st.cache key then moveToEnd st.cache key
  else if st.cache.length ≥ st.maxSize then st.cache.tail
  else st.cache

/-- `MemoryBackend.set` (memory.py lines 148-193).  `ex` is unused by the
source and omitted.  `max_size == 0` → always `False`; `nx` and a live
entry → `False`; otherwise `touchOrEvict` then assign. -/
def memSet (st : MemoryBackend) (now : Nat) (key : String) (value : PyVal)
    (ttl : Option Nat) (nx : Bool) : MemoryBackend × Bool :=
  if st.maxSize == 0 then (st, false)
  else if nx && liveEntryExists st.cache now key then (st, false)
  else
    let expiresAt := ttl.map (fun t => now + t)
    ({ st with cache := dictAssign (touchOrEvict st key) key (value, expiresAt) }, true)

/-- `MemoryBackend.delete` (memory.py lines 218-237): removes the binding
if physically present (no expiry check) and reports whether it was. -/
def memDelete (st : MemoryBackend) (key : String) : MemoryBackend × Bool :=
  if containsKey st.cache key then
    ({ st with cache := eraseKey st.cache key }, true)
  else (st, false)

/-- `MemoryBackend.exists` (memory.py lines 254-272):
`self.get(key) is not None` (with `get`'s side effects). -/
def memExists (st : MemoryBackend) (now : Nat) (key : String) :
    Bool × MemoryBackend :=
  let r := memGet st now key
  (r.1 != PyVal.pynone, r.2)

/-- Result dictionary of `get_many`: insertion-ordered association list. -/
abbrev ResultMap := List (String × PyVal)

/-- `result[key] = value` on a Python dict. -/
def rmAssign (m : ResultMap) (k : String) (v : PyVal) : ResultMap :=
  if m.any (fun p => p.1 == k) then
    m.map (fun p => if p.1 = k then (k, v) else p)
  else m ++ [(k, v)]

/-- Loop body threading of `MemoryBackend.get_many` (memory.py lines
289-327): one `now` for the whole batch; skip missing keys, lazily
delete expired ones, move hits to the MRU end and record
`result[key] = value` (also when the stored value is `None`). -/
def memGetManyLoop (now : Nat) (keys : List String) (acc : ResultMap)
    (c : Cache) : ResultMap × Cache :=
  match keys with
  | [] => (acc, c)
  | k :: rest =>
    match lookupEntry c k with
    | none => memGetManyLoop now rest acc c
    | some (v, expiresAt) =>
      match expiresAt with
      | some e =>
        if now > e then memGetManyLoop now rest acc (eraseKey c k)
        else memGetManyLoop now rest (rmAssign acc k v) (moveToEnd c k)
      | none => memGetManyLoop now rest (rmAssign acc k v) (moveToEnd c k)

/-- `MemoryBackend.get_many`. -/
def memGetMany (st : MemoryBackend) (now : Nat) (keys : List String) :
    ResultMap × MemoryBackend :=
  let r := memGetManyLoop now keys [] st.cache
  (r.1, { st with cache := r.2 })

/-- Loop body of `MemoryBackend.set_many` (memory.py lines 329-366):
for each pair, evict the LRU head when at capacity and the key is new,
then assign and `move_to_end`. -/
def memSetManyLoop (maxSize : Nat) (expiresAt : Option Nat)
    (mapping : List (String × PyVal)) (c : Cache) : Cache :=
  match mapping with
  | [] => c
  | (k, v) :: rest =>
    let c1 := if c.length ≥ maxSize && !containsKey c k then c.tail else c
    memSetManyLoop maxSize expiresAt rest
      (moveToEnd (dictAssign c1 k (v, expiresAt)) k)

/-- `MemoryBackend.set_many`: no-op when `max_size == 0`; one
`expires_at` computed up front for the whole batch. -/
def memSetMany (st : MemoryBackend) (now : Nat)
    (mapping : List (String × PyVal)) (ttl : Option Nat) : MemoryBackend :=
  if st.maxSize == 0 then st
  else
    let expiresAt := ttl.map (fun t => now + t)
    { st with cache := memSetManyLoop st.maxSize expiresAt mapping st.cache }

/-- `BaseBackend.delete_many` (base.py lines 300-320) specialised to the
memory backend (which does not override it): sequential `delete` calls,
counting the `True` returns. -/
def memDeleteMany (st : MemoryBackend) (keys : List String) :
    Nat × MemoryBackend :=
  match keys with
  | [] => (0, st)
  | k :: rest =>
    let r := memDelete st k
    let r2 := memDeleteMany r.1 rest
    (if r.2 then r2.1 + 1 else r2.1, r2.2)

/-- `BaseBackend.get_many` (base.py lines 210-231) specialised to the
memory backend: the sequential application of single-key `get`, adding a
key to the result only when `get` returned a non-`None` value. -/
def seqGetMany (st : MemoryBackend) (now : Nat) (keys : List String)
    (acc : ResultMap) : ResultMap × MemoryBackend :=
  match keys with
  | [] => (acc, st)
  | k :: rest =>
    let r := memGet st now k
    seqGetMany r.2 now rest (if r.1 != PyVal.pynone then rmAssign acc k r.1 else acc)

/-- `BaseBackend.set_many` (base.py lines 256-276) specialised to the
memory backend: the sequential application of single-key `set` (with
`nx = False`), all at the same instant. -/
def seqSetMany (st : MemoryBackend) (now : Nat)
    (mapping : List (String × PyVal)) (ttl : Option Nat) : MemoryBackend :=
  match mapping with
  | [] => st
  | (k, v) :: rest => seqSetMany (memSet st now k v ttl false).1 now rest ttl

/-- Glob matching of `fnmatch.fnmatch` restricted to the pattern language
the spec defines for `keys()`: `*` matches any run, `?` a single
character, anything else itself (character classes are not used by this
repository). -/
def globMatch : List Char → List Char → Bool
  | [], [] => true
  | [], _ :: _ => false
  | p :: ps, s =>
    if p = '*' then
      match s with
      | [] => globMatch ps []
      | c :: cs => globMatch ps (c :: cs) || globMatch ('*' :: ps) cs
    else
      match s with
      | [] => false
      | c :: cs => (p == c || p == '?') && globMatch ps cs
termination_by p s => (s.length, p.length)

/-- `fnmatch.fnmatch(k, pattern)`. -/
def fnmatch (k pat : String) : Bool :=
  globMatch pat.data k.data

/-- `KeysPage` (types.py). -/
structure KeysPage where
  keys : List String
  cursor : Nat
  hasMore : Bool
  totalScanned : Nat
  deriving DecidableEq

/-- `MemoryBackend.keys` (memory.py lines 370-422): takes **all** stored
keys (no expiry check and no clock read), filters by the pattern, and
slices `matched[cursor : cursor + count]` (further capped by
`max_keys`). -/
def memKeys (st : MemoryBackend) (pattern : String) (cursor : Nat)
    (count : Nat) (maxKeys : Option Nat) : KeysPage :=
  let allKeys := st.cache.map Prod.fst
  let matched :=
    if pattern == "*" then allKeys
    else allKeys.filter (fun k => fnmatch k pattern)
  let total := matched.length
  let startIdx := cursor
  let endIdx := startIdx + count
  let endIdx := match maxKeys with
    | some m => min endIdx (startIdx + m)
    | none => endIdx
  let pageKeys := (matched.take endIdx).drop startIdx
  let nextCursor := if endIdx < total then endIdx else 0
  { keys := pageKeys, cursor := nextCursor, hasMore := nextCursor > 0,
    totalScanned := pageKeys.length }

/-- `MemoryBackend.ttl` (memory.py lines 434-450): `-2` when the key is
not physically stored, `-1` when stored with no expiry, else
`int(expires_at - time.time())` if positive and `-2` otherwise. -/
def memTtl (st : MemoryBackend) (now : Nat) (key : String) : Int :=
  match lookupEntry st.cache key with
  | none => -2
  | some (_, none) => -1
  | some (_, some e) =>
    let remaining : Int := (e : Int) - (now : Int)
    if remaining > 0 then remaining else -2

/-- `MemoryBackend.close` (memory.py lines 456-465): the body only tests
whether the cleanup thread is alive and then does `pass` — it neither
sets the `_stop_cleanup` event nor joins the thread (only `__del__`
does, lines 514-525).  The state is returned unchanged. -/
def memClose (st : MemoryBackend) : MemoryBackend :=
  st

/-! ## File backend (src/symphra_cache/backends/file.py)

The logical content of the SQLite table `cache_entries`.  Rows are kept
in rowid (insertion) order; `INSERT OR REPLACE` deletes the old row and
appends the new one.  The serializer is modelled as the identity on
`PyVal` (`deserialize (serialize v) = v`). -/

/-- One row of `cache_entries`. -/
structure FileRow where
  value : PyVal
  expiresAt : Option Nat
  lastAccess : Nat
  createdAt : Nat
  deriving DecidableEq

abbrev Table := List (String × FileRow)

/-- `SELECT ... WHERE key = ?` (keys are a PRIMARY KEY, so unique). -/
def tblLookup (t : Table) (k : String) : Option FileRow :=
  match t with
  | [] => none
  | p :: rest => if p.1 == k then some p.2 else tblLookup rest k

/-- `DELETE FROM cache_entries WHERE key = ?`. -/
def tblErase (t : Table) (k : String) : Table :=
  t.filter (fun p => p.1 ≠ k)

/-- `INSERT OR REPLACE`: delete any row with this key, append the new
row (fresh rowid). -/
def tblUpsert (t : Table) (k : String) (r : FileRow) : Table :=
  tblErase t k ++ [(k, r)]

/-- `UPDATE cache_entries SET last_access = ? WHERE key = ?`. -/
def tblTouch (t : Table) (k : String) (now : Nat) : Table :=
  t.map (fun p => if p.1 == k then (k, { p.2 with lastAccess := now }) else p)

/-- State of a `FileBackend` (the sweep-thread stop event modelled as in
`MemoryBackend`). -/
structure FileBackend where
  maxSize : Nat
  table : Table
  stopCleanup : Bool
  deriving DecidableEq

/-- `FileBackend.__init__`: fresh empty table, stop event unset. -/
def FileBackend.mkInit (maxSize : Nat) : FileBackend :=
  { maxSize := maxSize, table := [], stopCleanup := false }

/-- `FileBackend.get` (file.py lines 162-214): row miss → `None`;
`time.time() > expires_at` (strictly) → delete the row, `None`;
otherwise update `last_access` and return the deserialized value. -/
def fileGet (st : FileBackend) (now : Nat) (key : String) :
    PyVal × FileBackend :=
  match tblLookup st.table key with
  | none => (PyVal.pynone, st)
  | some row =>
    match row.expiresAt with
    | some e =>
      if now > e then (PyVal.pynone, { st with table := tblErase st.table key })
      else (row.value, { st with table := tblTouch st.table key now })
    | none => (row.value, { st with table := tblTouch st.table key now })

/-- The liveness test of the `nx` branch of `FileBackend.set` (file.py
lines 284-291): `expires_at IS NULL OR expires_at > now` — note the
strict `>`, unlike `get`, which keeps an entry with `expires_at = now`
alive. -/
def fileNxLive (row : FileRow) (now : Nat) : Bool :=
  match row.expiresAt with
  | none => true
  | some e => e > now

/-- Insert a row into a list sorted by ascending `last_access`, placing
ties after earlier rows (SQLite scans the `last_access` index in rowid
order within equal keys). -/
def insertByAccess (p : String × FileRow) (t : Table) : Table :=
  match t with
  | [] => [p]
  | q :: rest =>
    if p.2.lastAccess < q.2.lastAccess then p :: q :: rest
    else q :: insertByAccess p rest

/-- Stable sort of the table by ascending `last_access`
(`ORDER BY last_access ASC`). -/
def sortByAccess (t : Table) : Table :=
  match t with
  | [] => []
  | p :: rest => insertByAccess p (sortByAccess rest)

/-- `FileBackend._evict_if_needed` (file.py lines 421-446): when
`COUNT(*) > max_size`, delete the `count - max_size` rows with smallest
`last_access`. -/
def evictIfNeeded (t : Table) (maxSize : Nat) : Table :=
  if t.length > maxSize then
    let victims := ((sortByAccess t).take (t.length - maxSize)).map Prod.fst
    t.filter (fun p => !victims.contains p.1)
  else t

/-- The row written by `FileBackend.set`:
`(key, serialized_value, expires_at, now, now)`. -/
def mkRow (value : PyVal) (expiresAt : Option Nat) (now : Nat) : FileRow :=
  { value := value, expiresAt := expiresAt, lastAccess := now, createdAt := now }

/-- `FileBackend.set` (file.py lines 253-316): serialize, compute
`expires_at = now + ttl`, `nx` pre-check with `fileNxLive`, upsert the
row with `last_access = created_at = now`, then the eviction pass; all
committed together.  `ex` is unused by the source and omitted. -/
def fileSet (st : FileBackend) (now : Nat) (key : String) (value : PyVal)
    (ttl : Option Nat) (nx : Bool) : FileBackend × Bool :=
  let expiresAt := ttl.map (fun t => now + t)
  let nxBlocked :=
    nx && (match tblLookup st.table key with
           | some row => fileNxLive row now
           | none => false)
  if nxBlocked then (st, false)
  else
    let t1 := tblUpsert st.table key (mkRow value expiresAt now)
    ({ st with table := evictIfNeeded t1 st.maxSize }, true)

/-- `FileBackend.delete` (file.py lines 381-393): unconditional SQL
delete, `True` iff a row (live or not) was removed. -/
def fileDelete (st : FileBackend) (key : String) : FileBackend × Bool :=
  match tblLookup st.table key with
  | some _ => ({ st with table := tblErase st.table key }, true)
  | none => (st, false)

/-- `FileBackend.exists` (file.py lines 405-407):
`self.get(key) is not None`. -/
def fileExists (st : FileBackend) (now : Nat) (key : String) :
    Bool × FileBackend :=
  let r := fileGet st now key
  (r.1 != PyVal.pynone, r.2)

/-- Insertion into a list of keys sorted ascending (`ORDER BY key`). -/
def insertKeySorted (k : String) (l : List String) : List String :=
  match l with
  | [] => [k]
  | x :: rest => if k < x then k :: x :: rest else x :: insertKeySorted k rest

/-- Sort keys ascending. -/
def sortKeys (l : List String) : List String :=
  match l with
  | [] => []
  | x :: rest => insertKeySorted x (sortKeys rest)

/-- `FileBackend.keys` (file.py lines 523-585): selects the keys of rows
with `expires_at IS NULL OR expires_at > now`, ordered by key, then the
same pattern filter and slicing as the memory backend. -/
def fileKeys (st : FileBackend) (now : Nat) (pattern : String)
    (cursor : Nat) (count : Nat) (maxKeys : Option Nat) : KeysPage :=
  let allKeys := sortKeys ((st.table.filter (fun p => fileNxLive p.2 now)).map Prod.fst)
  let matched :=
    if pattern == "*" then allKeys
    else allKeys.filter (fun k => fnmatch k pattern)
  let total := matched.length
  let startIdx := cursor
  let endIdx := startIdx + count
  let endIdx := match maxKeys with
    | some m => min endIdx (startIdx + m)
    | none => endIdx
  let pageKeys := (matched.take endIdx).drop startIdx
  let nextCursor := if endIdx < total then endIdx else 0
  { keys := pageKeys, cursor := nextCursor, hasMore := nextCursor > 0,
    totalScanned := pageKeys.length }

/-- `BaseBackend.ttl` (base.py lines 408-428), the default the file
backend inherits (it defines no override): `-2` when `exists` is false,
otherwise `-1` — it never returns a remaining-seconds count. -/
def fileTtl (st : FileBackend) (now : Nat) (key : String) :
    Int × FileBackend :=
  let r := fileExists st now key
  (if r.1 then -1 else -2, r.2)

/-- `FileBackend.close` (file.py lines 597-605): sets the stop event and
joins the sweep thread with a bounded (1 s) timeout; safe to repeat. -/
def fileClose (st : FileBackend) : FileBackend :=
  { st with stopCleanup := true }

/-! ## Distributed lock (src/symphra_cache/locks.py)

The lock calls `manager.get` / `manager.set` / `manager.delete`, and
`CacheManager` (manager.py lines 84-155) delegates each verbatim to its
backend; here the backend is a `MemoryBackend`. -/

/-- State of a `DistributedLock` instance: `name` already carries the
`"lock:{name}"` key (locks.py line 63), `identifier` is the
`uuid.uuid4()` owner token (line 67), `locked` is `self._locked`. -/
structure DLock where
  name : String
  timeout : Nat
  identifier : String
  locked : Bool
  deriving DecidableEq

/-- `DistributedLock.__init__` (locks.py lines 44-68). -/
def DLock.mkInit (name : String) (timeout : Nat) (identifier : String) : DLock :=
  { name := "lock:" ++ name, timeout := timeout, identifier := identifier,
    locked := false }

/-- The read step of `DistributedLock.acquire` (locks.py line 81):
`existing = self.manager.get(self.name)` — a plain `get`, a separate
backend call from the write that may follow. -/
def acquireProbe (man : MemoryBackend) (now : Nat) (lk : DLock) :
    PyVal × MemoryBackend :=
  memGet man now lk.name

/-- The write step of `DistributedLock.acquire` (locks.py lines 85-87):
`self.manager.set(self.name, self.identifier, ttl=self.timeout)` — an
**unconditional** set (no `nx` argument, so `nx = False`), then
`self._locked = True` and return `True`. -/
def acquireWrite (man : MemoryBackend) (now : Nat) (lk : DLock) :
    MemoryBackend × DLock × Bool :=
  let r := memSet man now lk.name (PyVal.pystr lk.identifier) (some lk.timeout) false
  (r.1, { lk with locked := true }, true)

/-- One poll iteration of `DistributedLock.acquire` (locks.py lines
79-100) as observed in non-blocking mode: probe, and either write and
succeed, or return `False`. -/
def lockTryAcquire (man : MemoryBackend) (now : Nat) (lk : DLock) :
    MemoryBackend × DLock × Bool :=
  let r := acquireProbe man now lk
  if r.1 == PyVal.pynone then acquireWrite r.2 now lk
  else (r.2, lk, false)

/-- `DistributedLock.release` (locks.py lines 102-111): a no-op unless
`self._locked`; otherwise read the current value and delete the key only
when it equals this instance's own token. -/
def lockRelease (man : MemoryBackend) (now : Nat) (lk : DLock) :
    MemoryBackend × DLock :=
  if !lk.locked then (man, lk)
  else
    let r := memGet man now lk.name
    if r.1 == PyVal.pystr lk.identifier then
      ((memDelete r.2 lk.name).1, { lk with locked := false })
    else (r.2, lk)

/-- Analysis predicate for the batch-equivalence theorem: no entry of
`c` that is live at `now` stores the Python value `None`.  (The batched
`get_many` of the memory backend and the sequential base-class loop
disagree exactly on live stored `None` values.) -/
def noLiveNone (c : Cache) (now : Nat) : Prop :=
  ∀ k v exp, lookupEntry c k = some (v, exp) →
    (match exp with
     | none => True
     | some e => now ≤ e) → ¬v = PyVal.pynone

/-! ## Concrete execution states used by the analyses -/

/-- Spec scenario for the LRU eviction order: memory engine with
capacity 3, `set(a)`, `set(b)`, `set(c)`, `set(d)` (no TTLs). -/
def lruS4 : MemoryBackend :=
  (memSet (memSet (memSet (memSet (MemoryBackend.mkInit 3)
    0 "a" (PyVal.pyint 1) none false).1
    0 "b" (PyVal.pyint 2) none false).1
    0 "c" (PyVal.pyint 3) none false).1
    0 "d" (PyVal.pyint 4) none false).1

/-- The four reads of the scenario, threaded in order:
`get(a)`, `get(b)`, `get(c)`, `get(d)`. -/
def lruGA : PyVal × MemoryBackend := memGet lruS4 0 "a"
def lruGB : PyVal × MemoryBackend := memGet lruGA.2 0 "b"
def lruGC : PyVal × MemoryBackend := memGet lruGB.2 0 "c"
def lruGD : PyVal × MemoryBackend := memGet lruGC.2 0 "d"

/-- The second touch of `b`, followed by `set(e)`. -/
def lruGB2 : PyVal × MemoryBackend := memGet lruGD.2 0 "b"
def lruS5 : MemoryBackend := (memSet lruGB2.2 0 "e" (PyVal.pyint 5) none false).1

/-- Two lock instances contending for the resource "r" on an empty
backend: A with token "tokA", B with token "tokB". -/
def raceA : DLock := DLock.mkInit "r" 10 "tokA"
def raceB : DLock := DLock.mkInit "r" 10 "tokB"

/-- Interleaving of the two acquires, step 1: A runs its probe
(locks.py line 81) and observes the lock key absent. -/
def raceProbeA : PyVal × MemoryBackend :=
  acquireProbe (MemoryBackend.mkInit 10) 0 raceA

/-- Step 2: B runs its complete acquire (probe + write) and succeeds. -/
def raceAcqB : MemoryBackend × DLock × Bool := lockTryAcquire raceProbeA.2 0 raceB

/-- Step 3: A resumes after its probe and runs its write step (locks.py
lines 85-87). -/
def raceWriteA : MemoryBackend × DLock × Bool := acquireWrite raceAcqB.1 0 raceA

/-- A backend on which B holds the lock "r" (token "tokB", TTL 10,
written at `t = 0`). -/
def heldB : MemoryBackend :=
  (memSet (MemoryBackend.mkInit 10) 0 "lock:r" (PyVal.pystr "tokB") (some 10) false).1

/-- A lock instance for "r" with token "tokA" whose `_locked` flag is
still `true` (a past holder whose record was since replaced by B). -/
def staleA : DLock :=
  { name := "lock:r", timeout := 10, identifier := "tokA", locked := true }

/-- The file-backend state used by the `nx` boundary analysis: row `"k"`
written at `t = 0` with `ttl = 5`, so `expires_at = 5`. -/
def nxDemo : FileBackend :=
  (fileSet (FileBackend.mkInit 10) 0 "k" (PyVal.pyint 1) (some 5) false).1

/-- The memory state after a first successful `nx` set of `"k" = 1`
(no TTL) on an empty backend. -/
def nxMemDemo : MemoryBackend :=
  (memSet (MemoryBackend.mkInit 10) 0 "k" (PyVal.pyint 1) none true).1

/-- The state used by the `ttl` analysis: entry `"k"` written at `t = 0`
with `ttl = 5`. -/
def ttlDemo : MemoryBackend :=
  (memSet (MemoryBackend.mkInit 10) 0 "k" (PyVal.pyint 7) (some 5) false).1

/-- The state used by the expired-keys analysis: entry `"k"` written at
`t = 0` with `ttl = 1`, hence expired from `t = 2` on. -/
def expiredDemo : MemoryBackend :=
  (memSet (MemoryBackend.mkInit 10) 0 "k" (PyVal.pyint 7) (some 1) false).1

/-- The state used by the stored-`None` analysis: `set("k", None)` on an
empty memory backend. -/
def noneDemo : MemoryBackend :=
  (memSet (MemoryBackend.mkInit 10) 0 "k" PyVal.pynone none false).1

/-- The state used by the batch-equivalence witness: a live entry
`"a" = 1` (no expiry) and an entry `"x" = 9` with `expires_at = 1`,
hence expired at any time from 2 on. -/
def batchDemo : MemoryBackend :=
  { maxSize := 10,
    cache := [("a", (PyVal.pyint 1, none)), ("x", (PyVal.pyint 9, some 1))],
    stopCleanup := false }

/-! ## Basic lemmas about the ordered-dictionary model -/

theorem lookupEntry_nil (k : String) : lookupEntry [] k = none := rfl

theorem lookupEntry_cons (p : String × Entry) (rest : Cache) (k : String) :
    lookupEntry (p :: rest) k = if p.1 == k then some p.2 else lookupEntry rest k := rfl

theorem containsKey_nil (k : String) : containsKey [] k = false := rfl

theorem containsKey_cons (p : String × Entry) (rest : Cache) (k : String) :
    containsKey (p :: rest) k = ((p.1 == k) || containsKey rest k) := by
  simp [containsKey]

theorem eraseKey_nil (k : String) : eraseKey [] k = [] := rfl

theorem eraseKey_cons (p : String × Entry) (rest : Cache) (k : String) :
    eraseKey (p :: rest) k =
      if p.1 = k then eraseKey rest k else p :: eraseKey rest k := by
  by_cases h : p.1 = k <;> simp [eraseKey, List.filter_cons, h]

theorem containsKey_eq_isSome (c : Cache) (k : String) :
    containsKey c k = (lookupEntry c k).isSome := by
  induction c with
  | nil => rfl
  | cons p rest ih =>
    rw [containsKey_cons, lookupEntry_cons]
    by_cases h : p.1 = k
    · simp [h]
    · simp [h, ih]

theorem lookupEntry_append (a b : Cache) (k : String) :
    lookupEntry (a ++ b) k = (lookupEntry a k <|> lookupEntry b k) := by
  induction a with
  | nil => simp [lookupEntry]
  | cons p rest ih =>
    rw [List.cons_append, lookupEntry_cons, lookupEntry_cons]
    by_cases h : p.1 = k
    · simp [h]
    · simp [h, ih]

theorem lookupEntry_eq_none_of_not_contains {c : Cache} {k : String}
    (h : containsKey c k = false) : lookupEntry c k = none := by
  have := containsKey_eq_isSome c k
  rw [h] at this
  exact Option.not_isSome_iff_eq_none.mp (by simp [← this])

theorem lookupEntry_append_of_not_contains (c : Cache) (k : String) (e : Entry)
    (h : containsKey c k = false) : lookupEntry (c ++ [(k, e)]) k = some e := by
  rw [lookupEntry_append, lookupEntry_eq_none_of_not_contains h]
  simp [lookupEntry]

theorem lookupEntry_mapReplace (c : Cache) (k : String) (e : Entry)
    (h : containsKey c k = true) :
    lookupEntry (c.map (fun p => if p.1 = k then (k, e) else p)) k = some e := by
  induction c with
  | nil => simp [containsKey] at h
  | cons p rest ih =>
    rw [List.map_cons, lookupEntry_cons]
    by_cases hp : p.1 = k
    · simp [hp]
    · have h' : containsKey rest k = true := by
        rw [containsKey_cons] at h
        simpa [hp] using h
      rw [if_neg hp]
      have : ((p.1 == k) = true) ↔ False := by simp [hp]
      rw [if_neg (by simpa using hp)]
      exact ih h'

theorem lookupEntry_mapReplace_ne (c : Cache) (e : Entry) {k k' : String}
    (h : ¬k' = k) :
    lookupEntry (c.map (fun p => if p.1 = k then (k, e) else p)) k' =
      lookupEntry c k' := by
  induction c with
  | nil => rfl
  | cons p rest ih =>
    rw [List.map_cons, lookupEntry_cons, lookupEntry_cons]
    by_cases hp : p.1 = k
    · have hkk' : ¬(k : String) = k' := fun hk => h hk.symm
      have hpk' : ¬p.1 = k' := by rw [hp]; exact hkk'
      rw [if_pos hp]
      rw [if_neg (by simpa using hkk' : ¬((k, e).1 == k') = true)]
      rw [if_neg (by simpa using hpk')]
      exact ih
    · rw [if_neg hp]
      by_cases hk' : p.1 = k'
      · rw [if_pos (by simpa using hk'), if_pos (by simpa using hk')]
      · rw [if_neg (by simpa using hk'), if_neg (by simpa using hk')]
        exact ih

theorem lookupEntry_dictAssign_self (c : Cache) (k : String) (e : Entry) :
    lookupEntry (dictAssign c k e) k = some e := by
  unfold dictAssign
  by_cases h : containsKey c k
  · simp [h, lookupEntry_mapReplace c k e h]
  · have h' : containsKey c k = false := by simpa using h
    simp [h', lookupEntry_append_of_not_contains c k e h']

theorem lookupEntry_dictAssign_ne (c : Cache) (e : Entry) {k k' : String}
    (h : ¬k' = k) : lookupEntry (dictAssign c k e) k' = lookupEntry c k' := by
  unfold dictAssign
  by_cases hc : containsKey c k
  · simp [hc, lookupEntry_mapReplace_ne c e h]
  · have hc' : containsKey c k = false := by simpa using hc
    rw [hc']
    simp only [Bool.false_eq_true, if_false]
    rw [lookupEntry_append]
    cases h2 : lookupEntry c k' with
    | some e2 => rfl
    | none =>
      have : ¬(k : String) = k' := fun hh => h hh.symm
      simp [lookupEntry_cons, lookupEntry_nil, this]

theorem lookupEntry_eraseKey_self (c : Cache) (k : String) :
    lookupEntry (eraseKey c k) k = none := by
  induction c with
  | nil => rfl
  | cons p rest ih =>
    rw [eraseKey_cons]
    by_cases h : p.1 = k
    · simpa [h] using ih
    · simpa [lookupEntry_cons, h] using ih

theorem lookupEntry_eraseKey_ne (c : Cache) {k k' : String} (h : ¬k' = k) :
    lookupEntry (eraseKey c k) k' = lookupEntry c k' := by
  induction c with
  | nil => rfl
  | cons p rest ih =>
    rw [eraseKey_cons]
    by_cases hp : p.1 = k
    · have hpk' : ¬p.1 = k' := by rw [hp]; exact fun hk => h hk.symm
      rw [if_pos hp, lookupEntry_cons, if_neg (by simpa using hpk')]
      exact ih
    · rw [if_neg hp, lookupEntry_cons, lookupEntry_cons]
      by_cases hk' : p.1 = k'
      · rw [if_pos (by simpa using hk'), if_pos (by simpa using hk')]
      · rw [if_neg (by simpa using hk'), if_neg (by simpa using hk')]
        exact ih

theorem containsKey_eraseKey_self (c : Cache) (k : String) :
    containsKey (eraseKey c k) k = false := by
  rw [containsKey_eq_isSome, lookupEntry_eraseKey_self]
  rfl

theorem lookupEntry_moveToEnd (c : Cache) (k k' : String) :
    lookupEntry (moveToEnd c k) k' = lookupEntry c k' := by
  unfold moveToEnd
  cases heq : lookupEntry c k with
  | none => rfl
  | some e =>
    by_cases hk : k' = k
    · subst hk
      rw [lookupEntry_append_of_not_contains _ _ _ (containsKey_eraseKey_self c k')]
      exact heq.symm
    · rw [lookupEntry_append, lookupEntry_eraseKey_ne c hk]
      cases h2 : lookupEntry c k' with
      | some e2 => rfl
      | none =>
        have : ¬(k : String) = k' := fun hh => hk hh.symm
        simp [lookupEntry_cons, lookupEntry_nil, this]

theorem containsKey_moveToEnd (c : Cache) (k k' : String) :
    containsKey (moveToEnd c k) k' = containsKey c k' := by
  rw [containsKey_eq_isSome, containsKey_eq_isSome, lookupEntry_moveToEnd]

theorem containsKey_dictAssign_self (c : Cache) (k : String) (e : Entry) :
    containsKey (dictAssign c k e) k = true := by
  rw [containsKey_eq_isSome, lookupEntry_dictAssign_self]
  rfl

theorem containsKey_dictAssign_ne (c : Cache) (e : Entry) {k k' : String}
    (h : ¬k' = k) : containsKey (dictAssign c k e) k' = containsKey c k' := by
  rw [containsKey_eq_isSome, containsKey_eq_isSome, lookupEntry_dictAssign_ne c e h]

/-! ## Basic lemmas about the table model -/

theorem tblLookup_nil (k : String) : tblLookup [] k = none := rfl

theorem tblLookup_cons (p : String × FileRow) (rest : Table) (k : String) :
    tblLookup (p :: rest) k = if p.1 == k then some p.2 else tblLookup rest k := rfl

theorem tblErase_cons (p : String × FileRow) (rest : Table) (k : String) :
    tblErase (p :: rest) k =
      if p.1 = k then tblErase rest k else p :: tblErase rest k := by
  by_cases h : p.1 = k <;> simp [tblErase, List.filter_cons, h]

theorem tblLookup_append (a b : Table) (k : String) :
    tblLookup (a ++ b) k = (tblLookup a k <|> tblLookup b k) := by
  induction a with
  | nil => simp [tblLookup]
  | cons p rest ih =>
    rw [List.cons_append, tblLookup_cons, tblLookup_cons]
    by_cases h : p.1 = k
    · simp [h]
    · simp [h, ih]

theorem tblLookup_erase_self (t : Table) (k : String) :
    tblLookup (tblErase t k) k = none := by
  induction t with
  | nil => rfl
  | cons p rest ih =>
    rw [tblErase_cons]
    by_cases h : p.1 = k
    · simpa [h] using ih
    · simpa [tblLookup_cons, h] using ih

theorem tblLookup_erase_ne (t : Table) {k k' : String} (h : ¬k' = k) :
    tblLookup (tblErase t k) k' = tblLookup t k' := by
  induction t with
  | nil => rfl
  | cons p rest ih =>
    rw [tblErase_cons]
    by_cases hp : p.1 = k
    · have hpk' : ¬p.1 = k' := by rw [hp]; exact fun hk => h hk.symm
      rw [if_pos hp, tblLookup_cons, if_neg (by simpa using hpk')]
      exact ih
    · rw [if_neg hp, tblLookup_cons, tblLookup_cons]
      by_cases hk' : p.1 = k'
      · rw [if_pos (by simpa using hk'), if_pos (by simpa using hk')]
      · rw [if_neg (by simpa using hk'), if_neg (by simpa using hk')]
        exact ih

theorem tblLookup_upsert_self (t : Table) (k : String) (r : FileRow) :
    tblLookup (tblUpsert t k r) k = some r := by
  unfold tblUpsert
  rw [tblLookup_append, tblLookup_erase_self]
  simp [tblLookup]

theorem tblLookup_upsert_ne (t : Table) (r : FileRow) {k k' : String}
    (h : ¬k' = k) : tblLookup (tblUpsert t k r) k' = tblLookup t k' := by
  unfold tblUpsert
  rw [tblLookup_append, tblLookup_erase_ne t h]
  cases h2 : tblLookup t k' with
  | some r2 => rfl
  | none =>
    have : ¬(k : String) = k' := fun hh => h hh.symm
    simp [tblLookup_cons, tblLookup_nil, this]

theorem length_tblErase_le (t : Table) (k : String) :
    (tblErase t k).length ≤ t.length :=
  List.length_filter_le _ t

theorem evictIfNeeded_of_le {t : Table} {maxSize : Nat}
    (h : t.length ≤ maxSize) : evictIfNeeded t maxSize = t := by
  unfold evictIfNeeded
  simp [Nat.not_lt.mpr h]

theorem length_tblUpsert (t : Table) (k : String) (r : FileRow) :
    (tblUpsert t k r).length = (tblErase t k).length + 1 := by
  unfold tblUpsert
  rw [List.length_append]
  rfl

/-! ## Derived facts about single operations -/

theorem memSet_maxSize_ne_zero {st : MemoryBackend} (hmax : st.maxSize ≠ 0)
    (now : Nat) (k : String) (v : PyVal) (ttl : Option Nat) :
    memSet st now k v ttl false =
      ({ st with cache :=
          dictAssign (touchOrEvict st k) k (v, ttl.map (fun t => now + t)) },
        true) := by
  have hm0 : (st.maxSize == 0) = false := by simpa using hmax
  simp [memSet, hm0]

theorem memSet_lookup_self {st : MemoryBackend} (hmax : st.maxSize ≠ 0)
    (now : Nat) (k : String) (v : PyVal) (ttl : Option Nat) :
    lookupEntry (memSet st now k v ttl false).1.cache k
      = some (v, ttl.map (fun t => now + t)) := by
  rw [memSet_maxSize_ne_zero hmax]
  exact lookupEntry_dictAssign_self _ _ _

theorem fileSet_no_evict {st : FileBackend} (hroom : st.table.length < st.maxSize)
    (now : Nat) (k : String) (v : PyVal) (ttl : Option Nat) :
    fileSet st now k v ttl false =
      ({ st with table :=
          tblUpsert st.table k (mkRow v (ttl.map (fun t => now + t)) now) },
        true) := by
  have hlen : (tblUpsert st.table k
      (mkRow v (ttl.map (fun t => now + t)) now)).length ≤ st.maxSize := by
    rw [length_tblUpsert]
    have := length_tblErase_le st.table k
    omega
  simp [fileSet, evictIfNeeded_of_le hlen]

theorem memGet_lookup_preserved {st : MemoryBackend} {now : Nat} {k : String}
    (h : ¬(memGet st now k).1 = PyVal.pynone) (k' : String) :
    lookupEntry (memGet st now k).2.cache k' = lookupEntry st.cache k' := by
  cases heq : lookupEntry st.cache k with
  | none => exact absurd (by simp [memGet, heq]) h
  | some e =>
    obtain ⟨v, expiresAt⟩ := e
    cases expiresAt with
    | none =>
      simp only [memGet, heq]
      exact lookupEntry_moveToEnd st.cache k k'
    | some e0 =>
      by_cases hexp : now > e0
      · exact absurd (by simp [memGet, heq, hexp]) h
      · simp only [memGet, heq, hexp, if_false]
        exact lookupEntry_moveToEnd st.cache k k'

theorem memDelete_lookup_self (st : MemoryBackend) (k : String) :
    lookupEntry (memDelete st k).1.cache k = none := by
  unfold memDelete
  by_cases h : containsKey st.cache k
  · simp only [h, if_true]
    exact lookupEntry_eraseKey_self st.cache k
  · have h' : containsKey st.cache k = false := by simpa using h
    simp only [h', Bool.false_eq_true, if_false]
    exact lookupEntry_eq_none_of_not_contains h'

/-! ## Claim C1 -/

/-- Claim C1, counterexample.  The claim states that once a time greater
than **or equal to** `ttl` seconds has elapsed since the `set`, `get`
returns absent and `exists` returns `false`.  Concretely: `set` at
`t = 0` with `ttl = 1`; at `t = 1` exactly `ttl` seconds have elapsed,
yet `get` still returns the value and `exists` is still `true`, on the
memory engine and on the file engine alike (both expire an entry only
strictly after `expires_at`). -/
theorem claim1_counterexample :
    (memGet (memSet (MemoryBackend.mkInit 10) 0 "k" (PyVal.pyint 7) (some 1) false).1
        1 "k").1 = PyVal.pyint 7
    ∧ (memExists (memSet (MemoryBackend.mkInit 10) 0 "k" (PyVal.pyint 7) (some 1) false).1
        1 "k").1 = true
    ∧ (fileGet (fileSet (FileBackend.mkInit 10) 0 "k" (PyVal.pyint 7) (some 1) false).1
        1 "k").1 = PyVal.pyint 7 := by
  decide

/-- Claim C1, amended: for every key, value and `ttl > 0`, on the memory
engine (with nonzero capacity) and the file engine (with room in the
table): `set(key, value, ttl)` followed by an immediate `get(key)`
returns the value; and once **strictly more** than `ttl` seconds have
elapsed since the set, `get(key)` returns absent and `exists(key)`
returns `false`. -/
theorem claim1_amended (st : MemoryBackend) (fs : FileBackend) (now t2 : Nat)
    (k : String) (v : PyVal) (ttl : Nat) (httl : 0 < ttl)
    (hmax : 0 < st.maxSize) (hroom : fs.table.length < fs.maxSize)
    (hlate : now + ttl < t2) :
    ((memSet st now k v (some ttl) false).2 = true
      ∧ (memGet (memSet st now k v (some ttl) false).1 now k).1 = v
      ∧ (memGet (memSet st now k v (some ttl) false).1 t2 k).1 = PyVal.pynone
      ∧ (memExists (memSet st now k v (some ttl) false).1 t2 k).1 = false)
    ∧ ((fileSet fs now k v (some ttl) false).2 = true
      ∧ (fileGet (fileSet fs now k v (some ttl) false).1 now k).1 = v
      ∧ (fileGet (fileSet fs now k v (some ttl) false).1 t2 k).1 = PyVal.pynone
      ∧ (fileExists (fileSet fs now k v (some ttl) false).1 t2 k).1 = false) := by
  have hmz : st.maxSize ≠ 0 := Nat.pos_iff_ne_zero.mp hmax
  have hlook := memSet_lookup_self hmz now k v (some ttl)
  simp only [Option.map_some] at hlook
  have hngt : ¬now > now + ttl := by omega
  have hgt : t2 > now + ttl := hlate
  have hfset := fileSet_no_evict hroom now k v (some ttl)
  have hlookf : tblLookup (fileSet fs now k v (some ttl) false).1.table k
      = some (mkRow v (some (now + ttl)) now) := by
    rw [hfset]
    simpa using tblLookup_upsert_self fs.table k _
  refine ⟨⟨?_, ?_, ?_, ?_⟩, ⟨?_, ?_, ?_, ?_⟩⟩
  · rw [memSet_maxSize_ne_zero hmz]
  · simp [memGet, hlook, hngt]
  · simp [memGet, hlook, hgt]
  · simp [memExists, memGet, hlook, hgt]
  · rw [hfset]
  · simp [fileGet, hlookf, mkRow, hngt]
  · simp [fileGet, hlookf, mkRow, hgt]
  · simp [fileExists, fileGet, hlookf, mkRow, hgt]

theorem mem_insertKeySorted {a x : String} {l : List String}
    (h : a ∈ insertKeySorted x l) : a = x ∨ a ∈ l := by
  induction l with
  | nil =>
    rw [insertKeySorted] at h
    exact Or.inl (by simpa using h)
  | cons y rest ih =>
    rw [insertKeySorted] at h
    by_cases hc : x < y
    · rw [if_pos hc] at h
      rcases List.mem_cons.mp h with h1 | h1
      · exact Or.inl h1
      · exact Or.inr h1
    · rw [if_neg hc] at h
      rcases List.mem_cons.mp h with h1 | h1
      · exact Or.inr (List.mem_cons.mpr (Or.inl h1))
      · rcases ih h1 with h2 | h2
        · exact Or.inl h2
        · exact Or.inr (List.mem_cons.mpr (Or.inr h2))

theorem mem_sortKeys {a : String} {l : List String}
    (h : a ∈ sortKeys l) : a ∈ l := by
  induction l with
  | nil => simp [sortKeys] at h
  | cons x rest ih =>
    rw [sortKeys] at h
    rcases mem_insertKeySorted h with h1 | h1
    · exact List.mem_cons.mpr (Or.inl h1)
    · exact List.mem_cons.mpr (Or.inr (ih h1))

/-- Claim C1, witness: the amended theorem applied at `maxSize = 1`
engines, `now = 0`, `ttl = 1`, `t2 = 2`. -/
theorem claim1_witness :
    ((memSet (MemoryBackend.mkInit 1) 0 "k" (PyVal.pyint 7) (some 1) false).2 = true
      ∧ (memGet (memSet (MemoryBackend.mkInit 1) 0 "k" (PyVal.pyint 7) (some 1) false).1
          0 "k").1 = PyVal.pyint 7
      ∧ (memGet (memSet (MemoryBackend.mkInit 1) 0 "k" (PyVal.pyint 7) (some 1) false).1
          2 "k").1 = PyVal.pynone
      ∧ (memExists (memSet (MemoryBackend.mkInit 1) 0 "k" (PyVal.pyint 7) (some 1) false).1
          2 "k").1 = false)
    ∧ ((fileSet (FileBackend.mkInit 1) 0 "k" (PyVal.pyint 7) (some 1) false).2 = true
      ∧ (fileGet (fileSet (FileBackend.mkInit 1) 0 "k" (PyVal.pyint 7) (some 1) false).1
          0 "k").1 = PyVal.pyint 7
      ∧ (fileGet (fileSet (FileBackend.mkInit 1) 0 "k" (PyVal.pyint 7) (some 1) false).1
          2 "k").1 = PyVal.pynone
      ∧ (fileExists (fileSet (FileBackend.mkInit 1) 0 "k" (PyVal.pyint 7) (some 1) false).1
          2 "k").1 = false) :=
  claim1_amended (MemoryBackend.mkInit 1) (FileBackend.mkInit 1) 0 2 "k"
    (PyVal.pyint 7) 1 (by decide) (by decide) (by decide) (by decide)

/-! ## Claim C4 -/

/-- Claim C4, counterexample.  The claim states that a stored entry
whose expiry has passed never appears in any returned `KeysPage`.  On
the memory engine, `keys()` never checks expiry (and reads no clock):
with `"k"` written at `t = 0` and `ttl = 1`, at `t = 2` the entry is
expired (`get` returns absent), yet `keys("*")` still returns `["k"]`. -/
theorem claim4_counterexample :
    (memGet expiredDemo 2 "k").1 = PyVal.pynone
    ∧ (memKeys expiredDemo "*" 0 100 none).keys = ["k"] := by
  decide

/-- Claim C4, amended: on the file engine every key returned by `keys`
belongs to a stored row that is live at the time of the call
(`expires_at` absent or strictly in the future); on the memory engine a
returned key is only guaranteed to belong to a *physically stored*
entry — the scan applies no expiry filter, so expired, not-yet-swept
entries can appear. -/
theorem claim4_amended (fs : FileBackend) (st : MemoryBackend) (now : Nat)
    (pattern : String) (cursor count : Nat) (maxKeys : Option Nat) (k : String) :
    (k ∈ (fileKeys fs now pattern cursor count maxKeys).keys →
      ∃ p ∈ fs.table, p.1 = k ∧ fileNxLive p.2 now = true)
    ∧ (k ∈ (memKeys st pattern cursor count maxKeys).keys →
      ∃ p ∈ st.cache, p.1 = k) := by
  constructor
  · intro hk
    simp only [fileKeys] at hk
    have h1 : k ∈ (if (pattern == "*") = true then
        sortKeys ((fs.table.filter (fun p => fileNxLive p.2 now)).map Prod.fst)
      else (sortKeys ((fs.table.filter (fun p => fileNxLive p.2 now)).map Prod.fst)).filter
        (fun k => fnmatch k pattern)) :=
      List.take_subset _ _ (List.drop_subset _ _ hk)
    have h2 : k ∈ sortKeys ((fs.table.filter (fun p => fileNxLive p.2 now)).map Prod.fst) := by
      by_cases hp : (pattern == "*") = true
      · rwa [if_pos hp] at h1
      · rw [if_neg hp] at h1
        exact List.mem_of_mem_filter h1
    have h3 := mem_sortKeys h2
    rcases List.mem_map.mp h3 with ⟨p, hpmem, hfst⟩
    rcases List.mem_filter.mp hpmem with ⟨hin, hlive⟩
    exact ⟨p, hin, hfst, hlive⟩
  · intro hk
    simp only [memKeys] at hk
    have h1 : k ∈ (if (pattern == "*") = true then st.cache.map Prod.fst
      else (st.cache.map Prod.fst).filter (fun k => fnmatch k pattern)) :=
      List.take_subset _ _ (List.drop_subset _ _ hk)
    have h2 : k ∈ st.cache.map Prod.fst := by
      by_cases hp : (pattern == "*") = true
      · rwa [if_pos hp] at h1
      · rw [if_neg hp] at h1
        exact List.mem_of_mem_filter h1
    rcases List.mem_map.mp h2 with ⟨p, hpmem, hfst⟩
    exact ⟨p, hpmem, hfst⟩

/-- Claim C4, witness: the amended theorem applied to a file backend
holding the single live row `"k"` (no expiry) and a memory backend
holding the single entry `"k"`, both scanned with pattern `"*"`. -/
theorem claim4_witness :
    (∃ p ∈ (fileSet (FileBackend.mkInit 10) 0 "k" (PyVal.pyint 7) none false).1.table,
      p.1 = "k" ∧ fileNxLive p.2 0 = true)
    ∧ (∃ p ∈ noneDemo.cache, p.1 = "k") :=
  ⟨(claim4_amended (fileSet (FileBackend.mkInit 10) 0 "k" (PyVal.pyint 7) none false).1
      noneDemo 0 "*" 0 100 none "k").1 (by decide),
   (claim4_amended (fileSet (FileBackend.mkInit 10) 0 "k" (PyVal.pyint 7) none false).1
      noneDemo 0 "*" 0 100 none "k").2 (by decide)⟩

/-! ## Claim C5 -/

/-- Claim C5: the claim states that `acquire`, on finding the lock key
absent, claims it with a single conditional (`nx`) set, so that the
write cannot succeed once someone else holds the lock.  Evaluating the
code on the failing interleaving: A probes and sees the key absent; B
then acquires the lock completely (B holds `"lock:r"` with token
`"tokB"`, live, TTL 10); A's write step — a plain `set` with
`nx = False` (locks.py line 85) — still succeeds and overwrites B's
live lock, and both instances now believe they hold it.  The final
conjunct shows a conditional `nx` write at the same point would have
returned `False`. -/
theorem claim5_code_eval :
    raceProbeA.1 = PyVal.pynone
    ∧ raceAcqB.2.2 = true
    ∧ raceAcqB.2.1.locked = true
    ∧ (memGet raceAcqB.1 0 "lock:r").1 = PyVal.pystr "tokB"
    ∧ raceWriteA.2.2 = true
    ∧ raceWriteA.2.1.locked = true
    ∧ (memGet raceWriteA.1 0 "lock:r").1 = PyVal.pystr "tokA"
    ∧ (memSet raceAcqB.1 0 "lock:r" (PyVal.pystr "tokA") (some 10) true).2 = false := by
  decide

/-! ## Claim C6 -/

/-- Claim C6: the claim states that `close()` signals the sweep thread
to stop and joins it with a bounded timeout on every engine.  Evaluating
the code: `MemoryBackend.close` returns with the `_stop_cleanup` event
still unset and the state entirely unchanged (only `__del__` signals the
thread), while `FileBackend.close` does set the event, and is
idempotent. -/
theorem claim6_code_eval :
    memClose (MemoryBackend.mkInit 10) = MemoryBackend.mkInit 10
    ∧ (memClose (MemoryBackend.mkInit 10)).stopCleanup = false
    ∧ (fileClose (FileBackend.mkInit 10)).stopCleanup = true
    ∧ fileClose (fileClose (FileBackend.mkInit 10)) = fileClose (FileBackend.mkInit 10) := by
  decide

/-! ## Claim C7 -/

/-- Claim C7, counterexample.  The claim states `ttl(key)` returns `-2`
**iff** the key has no live entry.  With `"k"` written at `t = 0` and
`ttl = 5`, at `t = 5` the entry is still live — `get` returns the value
— yet `ttl` returns `-2`, because the remaining time `5 - 5 = 0` is not
positive. -/
theorem claim7_counterexample :
    (memGet ttlDemo 5 "k").1 = PyVal.pyint 7
    ∧ memTtl ttlDemo 5 "k" = -2 := by
  decide

/-- Claim C7, amended (memory engine): `ttl(key)` returns `-1` iff a
stored entry with no expiration exists; it returns the positive
remaining seconds `expires_at - now` for every stored entry whose
expiration lies strictly in the future; and it returns `-2` iff there is
no live entry **or** the live entry expires exactly at the current
second (truncated remaining time `≤ 0`).  The base-class default
inherited by the file engine returns `-1` for any live entry with a
non-`None` value — even one with a finite future expiry — and never a
positive count. -/
theorem claim7_amended (st : MemoryBackend) (fs : FileBackend) (now : Nat)
    (k : String) :
    (memTtl st now k = -1 ↔ ∃ v, lookupEntry st.cache k = some (v, none))
    ∧ (memTtl st now k = -2 ↔
        (liveEntryExists st.cache now k = false
          ∨ ∃ v, lookupEntry st.cache k = some (v, some now)))
    ∧ (∀ v e, lookupEntry st.cache k = some (v, some e) → now < e →
        memTtl st now k = (e : Int) - (now : Int) ∧ 0 < memTtl st now k)
    ∧ (∀ r, tblLookup fs.table k = some r → ¬r.value = PyVal.pynone →
        (∀ e, r.expiresAt = some e → now ≤ e) → (fileTtl fs now k).1 = -1) := by
  refine ⟨?_, ?_, ?_, ?_⟩
  · cases hl : lookupEntry st.cache k with
    | none => simp [memTtl, hl]
    | some p =>
      obtain ⟨v, expiresAt⟩ := p
      cases expiresAt with
      | none => simp [memTtl, hl]
      | some e =>
        by_cases he : (0 : Int) < (e : Int) - (now : Int)
        · simp only [memTtl, hl, he, if_pos he]
          constructor
          · intro h0
            omega
          · rintro ⟨v', hv'⟩
            simp at hv'
        · simp only [memTtl, hl, if_neg he]
          constructor
          · intro h0
            omega
          · rintro ⟨v', hv'⟩
            simp at hv'
  · cases hl : lookupEntry st.cache k with
    | none => simp [memTtl, liveEntryExists, hl]
    | some p =>
      obtain ⟨v, expiresAt⟩ := p
      cases expiresAt with
      | none =>
        simp only [memTtl, liveEntryExists, hl]
        constructor
        · intro h0
          omega
        · rintro (h0 | ⟨v', hv'⟩)
          · simp at h0
          · simp at hv'
      | some e =>
        by_cases he : (0 : Int) < (e : Int) - (now : Int)
        · simp only [memTtl, liveEntryExists, hl, if_pos he]
          constructor
          · intro h0
            omega
          · rintro (h0 | ⟨v', hv'⟩)
            · have : now ≤ e := by omega
              simp [this] at h0
            · have h2 := hv'
              simp only [Option.some.injEq, Prod.mk.injEq] at h2
              omega
        · simp only [memTtl, liveEntryExists, hl, if_neg he]
          constructor
          · intro _
            by_cases hen : e = now
            · exact Or.inr ⟨v, by rw [hen]⟩
            · refine Or.inl ?_
              have : ¬now ≤ e := by omega
              simp [this]
          · intro _
            trivial
  · intro v e hl hlt
    have he : (0 : Int) < (e : Int) - (now : Int) := by omega
    have hm : memTtl st now k = (e : Int) - (now : Int) := by
      simp [memTtl, hl, he]
    exact ⟨hm, by rw [hm]; omega⟩
  · intro r hl hv hlive
    have hget : (fileGet fs now k).1 = r.value := by
      cases hexp : r.expiresAt with
      | none => simp [fileGet, hl, hexp]
      | some e =>
        have : ¬now > e := by
          have := hlive e hexp
          omega
        simp [fileGet, hl, hexp, this]
    have : ((fileGet fs now k).1 != PyVal.pynone) = true := by
      rw [hget]
      simpa using hv
    simp [fileTtl, fileExists, this]

/-- Claim C7, witness: the amended theorem's positive-remaining clause
applied to the demo entry (`ttl = 5`, read at `t = 2`), and the base
default clause applied to a file row with a finite future expiry. -/
theorem claim7_witness :
    (memTtl ttlDemo 2 "k" = ((5 : Nat) : Int) - ((2 : Nat) : Int)
      ∧ 0 < memTtl ttlDemo 2 "k")
    ∧ (fileTtl (fileSet (FileBackend.mkInit 10) 0 "k" (PyVal.pyint 7) (some 5) false).1
        2 "k").1 = -1 :=
  ⟨(claim7_amended ttlDemo (FileBackend.mkInit 10) 2 "k").2.2.1
      (PyVal.pyint 7) 5 (by decide) (by decide),
   (claim7_amended ttlDemo
      (fileSet (FileBackend.mkInit 10) 0 "k" (PyVal.pyint 7) (some 5) false).1 2 "k").2.2.2
      (mkRow (PyVal.pyint 7) (some 5) 0) (by decide) (by decide)
      (fun e he => by simp [mkRow] at he; omega)⟩

/-! ## Claim C10 -/

/-- Claim C10, counterexample.  The claim states that after
`set(key, None)`, `get_many` omits the key.  Evaluating the code: the
memory engine's batched `get_many` returns the mapping `{"k": None}` —
the key is present (mapped to `None`), not omitted (the sequential
base-class loop would omit it). -/
theorem claim10_counterexample :
    (memSet (MemoryBackend.mkInit 10) 0 "k" PyVal.pynone none false).2 = true
    ∧ (memGetMany noneDemo 0 ["k"]).1 = [("k", PyVal.pynone)] := by
  decide

/-- Claim C10, amended: on the memory engine, after a successful
`set(key, None)` (which returns `true`), `get(key)` returns the absent
result, `exists(key)` returns `false`, and `delete(key)` returns `true`
because the entry is physically present — but `get_many([key])` returns
the mapping `{key: None}` rather than omitting the key. -/
theorem claim10_amended (st : MemoryBackend) (now : Nat) (k : String)
    (hmax : 0 < st.maxSize) :
    (memSet st now k PyVal.pynone none false).2 = true
    ∧ (memGet (memSet st now k PyVal.pynone none false).1 now k).1 = PyVal.pynone
    ∧ (memExists (memSet st now k PyVal.pynone none false).1 now k).1 = false
    ∧ (memGetMany (memSet st now k PyVal.pynone none false).1 now [k]).1
        = [(k, PyVal.pynone)]
    ∧ (memDelete (memSet st now k PyVal.pynone none false).1 k).2 = true := by
  have hmz : st.maxSize ≠ 0 := Nat.pos_iff_ne_zero.mp hmax
  have hlook := memSet_lookup_self hmz now k PyVal.pynone none
  simp only [Option.map_none] at hlook
  have hck : containsKey (memSet st now k PyVal.pynone none false).1.cache k = true := by
    rw [containsKey_eq_isSome, hlook]
    rfl
  refine ⟨?_, ?_, ?_, ?_, ?_⟩
  · rw [memSet_maxSize_ne_zero hmz]
  · simp [memGet, hlook]
  · simp [memExists, memGet, hlook]
  · simp [memGetMany, memGetManyLoop, hlook, rmAssign]
  · simp [memDelete, hck]

/-- Claim C10, witness: the amended theorem applied to the empty memory
backend with capacity 10 and key `"k"` at `t = 0`. -/
theorem claim10_witness :
    (memSet (MemoryBackend.mkInit 10) 0 "k" PyVal.pynone none false).2 = true
    ∧ (memGet (memSet (MemoryBackend.mkInit 10) 0 "k" PyVal.pynone none false).1
        0 "k").1 = PyVal.pynone
    ∧ (memExists (memSet (MemoryBackend.mkInit 10) 0 "k" PyVal.pynone none false).1
        0 "k").1 = false
    ∧ (memGetMany (memSet (MemoryBackend.mkInit 10) 0 "k" PyVal.pynone none false).1
        0 ["k"]).1 = [("k", PyVal.pynone)]
    ∧ (memDelete (memSet (MemoryBackend.mkInit 10) 0 "k" PyVal.pynone none false).1
        "k").2 = true :=
  claim10_amended (MemoryBackend.mkInit 10) 0 "k" (by decide)

/-! ## Claim C3 -/

theorem containsKey_tail {c : Cache} {k : String}
    (h : containsKey c k = false) : containsKey c.tail k = false := by
  cases c with
  | nil => rfl
  | cons p rest =>
    rw [containsKey_cons] at h
    exact (Bool.or_eq_false_iff.mp h).2

theorem dictAssign_of_not_contains {c : Cache} {k : String} (e : Entry)
    (h : containsKey c k = false) : dictAssign c k e = c ++ [(k, e)] := by
  unfold dictAssign
  simp [h]

/-- Claim C3: on the memory engine with capacity 3 and no TTLs, after
`set(a)`, `set(b)`, `set(c)`, `set(d)`, `get(a)` is absent while
`get(b)`, `get(c)`, `get(d)` return their values; touching `b` via
`get` before `set(e)` makes `c` (not `b`) the evicted entry — the final
key order is `["d", "b", "e"]`, so `c` is gone and `b` retained.  In
general, eviction at insert time removes exactly the head of the LRU
order (the least-recently-touched entry) and keeps everything else, and
updating an existing key at full capacity never evicts any entry. -/
theorem claim3_lru (st : MemoryBackend) (now : Nat) (k : String) (v : PyVal)
    (ttl : Option Nat) (hmax : st.maxSize ≠ 0) :
    (lruGA.1 = PyVal.pynone
      ∧ lruGB.1 = PyVal.pyint 2
      ∧ lruGC.1 = PyVal.pyint 3
      ∧ lruGD.1 = PyVal.pyint 4
      ∧ lruGB2.1 = PyVal.pyint 2
      ∧ lruS5.cache.map Prod.fst = ["d", "b", "e"])
    ∧ (containsKey st.cache k = false → st.cache.length ≥ st.maxSize →
        (memSet st now k v ttl false).1.cache
          = st.cache.tail ++ [(k, (v, ttl.map (fun t => now + t)))])
    ∧ (containsKey st.cache k = true →
        ∀ k', containsKey (memSet st now k v ttl false).1.cache k'
          = containsKey st.cache k') := by
  refine ⟨by decide, ?_, ?_⟩
  · intro hnew hfull
    rw [memSet_maxSize_ne_zero hmax]
    have ht : touchOrEvict st k = st.cache.tail := by
      unfold touchOrEvict
      simp [hnew, hfull]
    rw [ht, dictAssign_of_not_contains _ (containsKey_tail hnew)]
  · intro hold k'
    rw [memSet_maxSize_ne_zero hmax]
    have ht : touchOrEvict st k = moveToEnd st.cache k := by
      unfold touchOrEvict
      simp [hold]
    rw [ht]
    by_cases hk : k' = k
    · subst hk
      rw [containsKey_dictAssign_self, hold]
    · rw [containsKey_dictAssign_ne _ _ hk, containsKey_moveToEnd]

/-- Claim C3, witness: the general eviction clause applied to the
scenario state `lruS4` (keys `b, c, d`, at capacity): inserting a new
key `"x"` evicts exactly the head `b` and appends `x`. -/
theorem claim3_witness :
    (memSet lruS4 0 "x" (PyVal.pyint 9) none false).1.cache
      = lruS4.cache.tail ++ [("x", (PyVal.pyint 9, none))] :=
  (claim3_lru lruS4 0 "x" (PyVal.pyint 9) none (by decide)).2.1
    (by decide) (by decide)

/-! ## Claim C9 -/

/-- Claim C9: a lock instance that never successfully acquired
(`_locked = false`) returns from `release()` with the backend state
completely unchanged (it makes no backend call at all); and a past
holder (`_locked = true`) deletes the lock key exactly when the stored
value equals its own token: if the current `get` returns its token, the
key is gone afterwards; if it returns some other owner's token, the
state is exactly the post-`get` state — the stored binding (the other
holder's lock) is untouched. -/
theorem claim9_release (man : MemoryBackend) (now : Nat) (lk : DLock) :
    (lk.locked = false → lockRelease man now lk = (man, lk))
    ∧ (lk.locked = true →
        ((memGet man now lk.name).1 = PyVal.pystr lk.identifier →
          lookupEntry (lockRelease man now lk).1.cache lk.name = none
          ∧ (lockRelease man now lk).2.locked = false)
        ∧ (∀ ow, (memGet man now lk.name).1 = PyVal.pystr ow →
            ¬ow = lk.identifier →
            lockRelease man now lk = ((memGet man now lk.name).2, lk)
            ∧ lookupEntry (lockRelease man now lk).1.cache lk.name
              = lookupEntry man.cache lk.name)) := by
  constructor
  · intro h
    simp [lockRelease, h]
  · intro h
    constructor
    · intro heq
      have hbeq : ((memGet man now lk.name).1 == PyVal.pystr lk.identifier) = true := by
        simp [heq]
      constructor
      · simp only [lockRelease, h, Bool.not_true, Bool.false_eq_true, if_false, hbeq,
          if_true]
        exact memDelete_lookup_self _ _
      · simp [lockRelease, h, hbeq]
    · intro ow how hne
      have hbeq : ((memGet man now lk.name).1 == PyVal.pystr lk.identifier) = false := by
        rw [how]
        simp [hne]
      have hrel : lockRelease man now lk = ((memGet man now lk.name).2, lk) := by
        simp [lockRelease, h, hbeq]
      refine ⟨hrel, ?_⟩
      rw [hrel]
      have hnn : ¬(memGet man now lk.name).1 = PyVal.pynone := by
        rw [how]
        simp
      exact memGet_lookup_preserved hnn lk.name

/-- Claim C9, witness: the theorem applied where B holds the lock with
token "tokB" and a stale instance with token "tokA" (flag still set)
calls `release`: B's lock binding survives unchanged; and, at the same
input with the flag cleared, `release` is the identity. -/
theorem claim9_witness :
    (lockRelease heldB 0 staleA = ((memGet heldB 0 "lock:r").2, staleA)
      ∧ lookupEntry (lockRelease heldB 0 staleA).1.cache "lock:r"
        = lookupEntry heldB.cache "lock:r")
    ∧ lockRelease heldB 0 (DLock.mkInit "r" 10 "tokA") =
        (heldB, DLock.mkInit "r" 10 "tokA") :=
  ⟨((claim9_release heldB 0 staleA).2 (by decide)).2 "tokB" (by decide) (by decide),
   (claim9_release heldB 0 (DLock.mkInit "r" 10 "tokA")).1 (by decide)⟩

/-! ## Claim C2 -/

theorem memSet_nx_of_free {st : MemoryBackend} {now : Nat} {k : String}
    (h : liveEntryExists st.cache now k = false) (v : PyVal) (ttl : Option Nat) :
    memSet st now k v ttl true = memSet st now k v ttl false := by
  simp [memSet, h]

theorem fileSet_nx_of_free {fs : FileBackend} {now : Nat} {k : String}
    (h : (match tblLookup fs.table k with
          | some row => fileNxLive row now
          | none => false) = false) (v : PyVal) (ttl : Option Nat) :
    fileSet fs now k v ttl true = fileSet fs now k v ttl false := by
  simp [fileSet, h]

/-- Claim C2, counterexample.  The claim states that while a live entry
for `k` exists, an `nx` set returns `false` and leaves the stored entry
unchanged.  On the file engine, with row `"k" = 1` whose
`expires_at = 5`: at `t = 5` the entry is still live (`get` returns 1),
yet an `nx` set succeeds and overwrites it (the `nx` pre-check uses
`expires_at > now`, while `get` expires only when `now > expires_at`). -/
theorem claim2_counterexample :
    (fileGet nxDemo 5 "k").1 = PyVal.pyint 1
    ∧ (fileSet nxDemo 5 "k" (PyVal.pyint 2) (some 5) true).2 = true
    ∧ (fileGet (fileSet nxDemo 5 "k" (PyVal.pyint 2) (some 5) true).1 5 "k").1
        = PyVal.pyint 2 := by
  decide

/-- Claim C2, amended.  On the memory engine (nonzero capacity) the
claim holds at every instant: when no live entry exists, `set(k, v1,
nx)` returns `true` and stores `v1`; while a live entry exists, an `nx`
set is a no-op returning `false` and `get` returns the stored value;
when the stored entry has expired, an `nx` set succeeds and overwrites
it.  On the file engine the same holds except at the single boundary
instant `now = expires_at`: the `nx` pre-check deems such an entry dead
(strict `expires_at > now`), so the `nx` no-op clause holds only for
entries with no expiry or expiry strictly in the future. -/
theorem claim2_amended (st : MemoryBackend) (fs : FileBackend)
    (now t2 : Nat) (k : String) (v1 v2 : PyVal) (ttl1 ttl2 : Option Nat)
    (hmax : st.maxSize ≠ 0) (hroom : fs.table.length < fs.maxSize) :
    (liveEntryExists st.cache now k = false →
      (memSet st now k v1 ttl1 true).2 = true
      ∧ lookupEntry (memSet st now k v1 ttl1 true).1.cache k
          = some (v1, ttl1.map (fun t => now + t)))
    ∧ (liveEntryExists st.cache t2 k = true →
        memSet st t2 k v2 ttl2 true = (st, false))
    ∧ (∀ v exp, lookupEntry st.cache k = some (v, exp) →
        liveEntryExists st.cache t2 k = true → (memGet st t2 k).1 = v)
    ∧ (∀ v0 e, lookupEntry st.cache k = some (v0, some e) → now > e →
        (memSet st now k v2 ttl2 true).2 = true
        ∧ lookupEntry (memSet st now k v2 ttl2 true).1.cache k
            = some (v2, ttl2.map (fun t => now + t)))
    ∧ ((match tblLookup fs.table k with
        | some row => fileNxLive row now
        | none => false) = false →
      (fileSet fs now k v1 ttl1 true).2 = true
      ∧ tblLookup (fileSet fs now k v1 ttl1 true).1.table k
          = some (mkRow v1 (ttl1.map (fun t => now + t)) now))
    ∧ (∀ row, tblLookup fs.table k = some row → fileNxLive row t2 = true →
        fileSet fs t2 k v2 ttl2 true = (fs, false)
        ∧ (fileGet fs t2 k).1 = row.value)
    ∧ (∀ row e, tblLookup fs.table k = some row → row.expiresAt = some e →
        t2 > e → (fileSet fs t2 k v2 ttl2 true).2 = true) := by
  refine ⟨?_, ?_, ?_, ?_, ?_, ?_, ?_⟩
  · intro hfree
    rw [memSet_nx_of_free hfree]
    exact ⟨by rw [memSet_maxSize_ne_zero hmax], memSet_lookup_self hmax now k v1 ttl1⟩
  · intro hlive
    by_cases hm : (st.maxSize == 0) = true
    · simp [memSet, hm]
    · simp [memSet, hm, hlive]
  · intro v exp hlook hlive
    cases exp with
    | none => simp [memGet, hlook]
    | some e =>
      rw [liveEntryExists, hlook] at hlive
      have hle : t2 ≤ e := by simpa using hlive
      simp [memGet, hlook, Nat.not_lt.mpr hle]
  · intro v0 e hlook hexp
    have hfree : liveEntryExists st.cache now k = false := by
      rw [liveEntryExists, hlook]
      simpa using hexp
    rw [memSet_nx_of_free hfree]
    exact ⟨by rw [memSet_maxSize_ne_zero hmax], memSet_lookup_self hmax now k v2 ttl2⟩
  · intro hfree
    rw [fileSet_nx_of_free hfree]
    rw [fileSet_no_evict hroom]
    exact ⟨rfl, by simpa using tblLookup_upsert_self fs.table k _⟩
  · intro row hlook hlive
    have hblocked : (match tblLookup fs.table k with
        | some r => fileNxLive r t2
        | none => false) = true := by
      rw [hlook]
      exact hlive
    constructor
    · simp [fileSet, hblocked]
    · cases hexp : row.expiresAt with
      | none => simp [fileGet, hlook, hexp]
      | some e =>
        simp only [fileNxLive, hexp] at hlive
        have : t2 < e := by simpa using hlive
        have hngt : ¬t2 > e := by omega
        simp [fileGet, hlook, hexp, hngt]
  · intro row e hlook hexp hlate
    have hfree : (match tblLookup fs.table k with
        | some r => fileNxLive r t2
        | none => false) = false := by
      rw [hlook]
      simp only [fileNxLive, hexp]
      simpa using Nat.not_lt.mpr (Nat.le_of_lt hlate)
    rw [fileSet_nx_of_free hfree]
    simp [fileSet]

/-- Claim C2, witness: the amended theorem applied concretely — an `nx`
set on the empty memory backend succeeds and stores the value, a second
`nx` set on the resulting state (entry live, no expiry) is a no-op
returning `false`, and on the file state `nxDemo` at `t = 3` (expiry 5
strictly in the future) the `nx` set is a no-op and `get` returns the
original value. -/
theorem claim2_witness :
    ((memSet (MemoryBackend.mkInit 10) 0 "k" (PyVal.pyint 1) none true).2 = true
      ∧ lookupEntry (memSet (MemoryBackend.mkInit 10) 0 "k" (PyVal.pyint 1) none true).1.cache
          "k" = some (PyVal.pyint 1, none))
    ∧ memSet nxMemDemo 3 "k" (PyVal.pyint 2) none true = (nxMemDemo, false)
    ∧ (fileSet nxDemo 3 "k" (PyVal.pyint 2) (some 5) true = (nxDemo, false)
      ∧ (fileGet nxDemo 3 "k").1 = PyVal.pyint 1) :=
  ⟨by
    have h := (claim2_amended (MemoryBackend.mkInit 10) (FileBackend.mkInit 10)
      0 0 "k" (PyVal.pyint 1) (PyVal.pyint 2) none none (by decide) (by decide)).1
      (by decide)
    simpa using h,
   (claim2_amended nxMemDemo (FileBackend.mkInit 10) 0 3 "k" (PyVal.pyint 1)
      (PyVal.pyint 2) none none (by decide) (by decide)).2.1 (by decide),
   by
    have h := ((claim2_amended (MemoryBackend.mkInit 10) nxDemo 0 3 "k"
      (PyVal.pyint 1) (PyVal.pyint 2) none (some 5) (by decide) (by decide)).2.2.2.2.2.1
      (mkRow (PyVal.pyint 1) (some 5) 0) (by decide) (by decide))
    simpa [mkRow] using h⟩

/-! ## Claim C8: batch operations versus sequential application -/

theorem eraseKey_of_not_contains {c : Cache} {k : String}
    (h : containsKey c k = false) : eraseKey c k = c := by
  induction c with
  | nil => rfl
  | cons p rest ih =>
    rw [containsKey_cons] at h
    obtain ⟨h1, h2⟩ := Bool.or_eq_false_iff.mp h
    rw [eraseKey_cons, if_neg (by simpa using h1), ih h2]

theorem eraseKey_append (a b : Cache) (k : String) :
    eraseKey (a ++ b) k = eraseKey a k ++ eraseKey b k := by
  unfold eraseKey
  rw [List.filter_append]

theorem eraseKey_single_self (k : String) (e : Entry) :
    eraseKey [(k, e)] k = [] := by
  rw [eraseKey_cons, if_pos rfl]
  rfl

theorem eraseKey_mapReplace (c : Cache) (k : String) (e : Entry) :
    eraseKey (c.map (fun p => if p.1 = k then (k, e) else p)) k
      = eraseKey c k := by
  induction c with
  | nil => rfl
  | cons p rest ih =>
    rw [List.map_cons, eraseKey_cons, eraseKey_cons]
    by_cases hp : p.1 = k
    · rw [if_pos (show (if p.1 = k then (k, e) else p).1 = k from by rw [if_pos hp]),
        if_pos hp]
      exact ih
    · simp only [if_neg hp]
      rw [ih]

theorem eraseKey_dictAssign (c : Cache) (k : String) (e : Entry) :
    eraseKey (dictAssign c k e) k = eraseKey c k := by
  unfold dictAssign
  by_cases hc : containsKey c k
  · rw [if_pos hc]
    exact eraseKey_mapReplace c k e
  · have hc' : containsKey c k = false := by simpa using hc
    rw [hc']
    simp only [Bool.false_eq_true, if_false]
    rw [eraseKey_append, eraseKey_single_self, List.append_nil]

theorem mapReplace_of_not_contains {l : Cache} {k : String} (e : Entry)
    (h : containsKey l k = false) :
    l.map (fun p => if p.1 = k then (k, e) else p) = l := by
  induction l with
  | nil => rfl
  | cons p rest ih =>
    rw [containsKey_cons] at h
    obtain ⟨h1, h2⟩ := Bool.or_eq_false_iff.mp h
    rw [List.map_cons, if_neg (by simpa using h1), ih h2]

theorem mapReplace_append_single {l : Cache} {k : String} (old e : Entry)
    (h : containsKey l k = false) :
    (l ++ [(k, old)]).map (fun p => if p.1 = k then (k, e) else p)
      = l ++ [(k, e)] := by
  rw [List.map_append, mapReplace_of_not_contains e h]
  simp

theorem lookupEntry_isSome_of_contains {c : Cache} {k : String}
    (hc : containsKey c k = true) : ∃ old, lookupEntry c k = some old := by
  have h := containsKey_eq_isSome c k
  rw [hc] at h
  cases hq : lookupEntry c k with
  | none => rw [hq] at h; simp at h
  | some old => exact ⟨old, rfl⟩

theorem moveToEnd_dictAssign (c : Cache) (k : String) (e : Entry)
    (hc : containsKey c k = true) :
    moveToEnd (dictAssign c k e) k = dictAssign (moveToEnd c k) k e := by
  have hL : moveToEnd (dictAssign c k e) k = eraseKey c k ++ [(k, e)] := by
    unfold moveToEnd
    rw [lookupEntry_dictAssign_self, eraseKey_dictAssign]
  obtain ⟨old, hold⟩ := lookupEntry_isSome_of_contains hc
  have hR : dictAssign (moveToEnd c k) k e = eraseKey c k ++ [(k, e)] := by
    unfold moveToEnd
    rw [hold]
    have hck : containsKey (eraseKey c k ++ [(k, old)]) k = true := by
      rw [containsKey_eq_isSome,
        lookupEntry_append_of_not_contains _ _ _ (containsKey_eraseKey_self c k)]
      rfl
    unfold dictAssign
    rw [if_pos hck]
    exact mapReplace_append_single old e (containsKey_eraseKey_self c k)
  rw [hL, hR]

theorem moveToEnd_append_self {c : Cache} {k : String} (e : Entry)
    (h : containsKey c k = false) :
    moveToEnd (c ++ [(k, e)]) k = c ++ [(k, e)] := by
  unfold moveToEnd
  rw [lookupEntry_append_of_not_contains c k e h, eraseKey_append,
    eraseKey_single_self, List.append_nil, eraseKey_of_not_contains h]

theorem setMany_step_eq (st : MemoryBackend) (k : String) (v : PyVal)
    (exp : Option Nat) :
    moveToEnd (dictAssign
        (if st.cache.length ≥ st.maxSize && !containsKey st.cache k
         then st.cache.tail else st.cache) k (v, exp)) k
      = dictAssign (touchOrEvict st k) k (v, exp) := by
  by_cases hc : containsKey st.cache k
  · have hcond : (decide (st.cache.length ≥ st.maxSize)
        && !containsKey st.cache k) = false := by
      rw [hc]
      simp
    simp only [ge_iff_le, hcond, Bool.false_eq_true, if_false]
    rw [moveToEnd_dictAssign _ _ _ hc]
    unfold touchOrEvict
    rw [if_pos hc]
  · have hc' : containsKey st.cache k = false := by simpa using hc
    have htail := containsKey_tail hc'
    by_cases hlen : st.cache.length ≥ st.maxSize
    · have hcond : (decide (st.cache.length ≥ st.maxSize)
          && !containsKey st.cache k) = true := by
        rw [hc']
        simpa using hlen
      simp only [ge_iff_le, hcond, if_true]
      rw [dictAssign_of_not_contains _ htail, moveToEnd_append_self _ htail]
      unfold touchOrEvict
      rw [if_neg hc, if_pos hlen, dictAssign_of_not_contains _ htail]
    · have hcond : (decide (st.cache.length ≥ st.maxSize)
          && !containsKey st.cache k) = false := by
        simp [hlen]
      simp only [ge_iff_le, hcond, Bool.false_eq_true, if_false]
      rw [dictAssign_of_not_contains _ hc', moveToEnd_append_self _ hc']
      unfold touchOrEvict
      rw [if_neg hc, if_neg hlen, dictAssign_of_not_contains _ hc']

theorem noLiveNone_eraseKey {c : Cache} {now : Nat} (h : noLiveNone c now)
    (k : String) : noLiveNone (eraseKey c k) now := by
  intro k' v exp hl hcond
  by_cases hk : k' = k
  · subst hk
    rw [lookupEntry_eraseKey_self] at hl
    cases hl
  · rw [lookupEntry_eraseKey_ne c hk] at hl
    exact h k' v exp hl hcond

theorem noLiveNone_moveToEnd {c : Cache} {now : Nat} (h : noLiveNone c now)
    (k : String) : noLiveNone (moveToEnd c k) now := by
  intro k' v exp hl hcond
  rw [lookupEntry_moveToEnd] at hl
  exact h k' v exp hl hcond

theorem memGet_fields (st : MemoryBackend) (now : Nat) (k : String) :
    (memGet st now k).2.maxSize = st.maxSize
    ∧ (memGet st now k).2.stopCleanup = st.stopCleanup := by
  cases hl : lookupEntry st.cache k with
  | none => simp [memGet, hl]
  | some p =>
    obtain ⟨v, exp⟩ := p
    cases exp with
    | none => simp [memGet, hl]
    | some e => by_cases hx : now > e <;> simp [memGet, hl, hx]

theorem seqGetMany_fields (now : Nat) :
    ∀ (keys : List String) (acc : ResultMap) (st : MemoryBackend),
      (seqGetMany st now keys acc).2.maxSize = st.maxSize
      ∧ (seqGetMany st now keys acc).2.stopCleanup = st.stopCleanup := by
  intro keys
  induction keys with
  | nil => exact fun acc st => ⟨rfl, rfl⟩
  | cons k rest ih =>
    intro acc st
    rw [seqGetMany]
    obtain ⟨h1, h2⟩ := memGet_fields st now k
    obtain ⟨g1, g2⟩ := ih (if (memGet st now k).1 != PyVal.pynone
      then rmAssign acc k (memGet st now k).1 else acc) (memGet st now k).2
    exact ⟨g1.trans h1, g2.trans h2⟩

theorem getManyLoop_eq_seq (now : Nat) :
    ∀ (keys : List String) (acc : ResultMap) (st : MemoryBackend),
      noLiveNone st.cache now →
      memGetManyLoop now keys acc st.cache
        = ((seqGetMany st now keys acc).1, (seqGetMany st now keys acc).2.cache) := by
  intro keys
  induction keys with
  | nil => exact fun acc st _ => rfl
  | cons k rest ih =>
    intro acc st h
    cases hl : lookupEntry st.cache k with
    | none =>
      have hloop : memGetManyLoop now (k :: rest) acc st.cache
          = memGetManyLoop now rest acc st.cache := by
        simp [memGetManyLoop, hl]
      have hseq : seqGetMany st now (k :: rest) acc = seqGetMany st now rest acc := by
        simp [seqGetMany, memGet, hl]
      rw [hloop, hseq]
      exact ih acc st h
    | some p =>
      obtain ⟨v, exp⟩ := p
      cases exp with
      | some e =>
        by_cases hx : now > e
        · have hloop : memGetManyLoop now (k :: rest) acc st.cache
              = memGetManyLoop now rest acc (eraseKey st.cache k) := by
            simp [memGetManyLoop, hl, hx]
          have hseq : seqGetMany st now (k :: rest) acc
              = seqGetMany { st with cache := eraseKey st.cache k } now rest acc := by
            simp [seqGetMany, memGet, hl, hx]
          rw [hloop, hseq]
          exact ih acc { st with cache := eraseKey st.cache k } (noLiveNone_eraseKey h k)
        · have hle : now ≤ e := Nat.not_lt.mp hx
          have hv : ¬v = PyVal.pynone := h k v (some e) hl hle
          have hbne : (v != PyVal.pynone) = true := by simpa using hv
          have hloop : memGetManyLoop now (k :: rest) acc st.cache
              = memGetManyLoop now rest (rmAssign acc k v) (moveToEnd st.cache k) := by
            simp [memGetManyLoop, hl, hx]
          have hseq : seqGetMany st now (k :: rest) acc
              = seqGetMany { st with cache := moveToEnd st.cache k } now rest
                  (rmAssign acc k v) := by
            simp [seqGetMany, memGet, hl, hx, hbne]
          rw [hloop, hseq]
          exact ih (rmAssign acc k v) { st with cache := moveToEnd st.cache k }
            (noLiveNone_moveToEnd h k)
      | none =>
        have hv : ¬v = PyVal.pynone := h k v none hl trivial
        have hbne : (v != PyVal.pynone) = true := by simpa using hv
        have hloop : memGetManyLoop now (k :: rest) acc st.cache
            = memGetManyLoop now rest (rmAssign acc k v) (moveToEnd st.cache k) := by
          simp [memGetManyLoop, hl]
        have hseq : seqGetMany st now (k :: rest) acc
            = seqGetMany { st with cache := moveToEnd st.cache k } now rest
                (rmAssign acc k v) := by
          simp [seqGetMany, memGet, hl, hbne]
        rw [hloop, hseq]
        exact ih (rmAssign acc k v) { st with cache := moveToEnd st.cache k }
          (noLiveNone_moveToEnd h k)

theorem lookupEntry_mem {c : Cache} {k : String} {e : Entry}
    (h : lookupEntry c k = some e) : (k, e) ∈ c := by
  induction c with
  | nil => cases h
  | cons p rest ih =>
    rw [lookupEntry_cons] at h
    by_cases hp : (p.1 == k) = true
    · rw [if_pos hp] at h
      have h2 : p = (k, e) := by
        have hk : p.1 = k := by simpa using hp
        have he : p.2 = e := Option.some.inj h
        cases p
        simp_all
      exact h2 ▸ List.mem_cons_self p rest
    · rw [if_neg hp] at h
      exact List.mem_cons.mpr (Or.inr (ih h))

theorem noLiveNone_of_all (c : Cache) (now : Nat)
    (h : ∀ p ∈ c, ¬p.2.1 = PyVal.pynone) : noLiveNone c now := by
  intro k v exp hl _
  exact h (k, (v, exp)) (lookupEntry_mem hl)

theorem seqSetMany_zero (now : Nat) (ttl : Option Nat) :
    ∀ (mapping : List (String × PyVal)) (st : MemoryBackend),
      st.maxSize = 0 → seqSetMany st now mapping ttl = st := by
  intro mapping
  induction mapping with
  | nil => exact fun st _ => rfl
  | cons kv rest ih =>
    intro st hm
    obtain ⟨k, v⟩ := kv
    have hset : memSet st now k v ttl false = (st, false) := by
      simp [memSet, hm]
    rw [seqSetMany, hset]
    exact ih st hm

theorem setManyLoop_eq_seq (now : Nat) (ttl : Option Nat) :
    ∀ (mapping : List (String × PyVal)) (st : MemoryBackend), st.maxSize ≠ 0 →
      MemoryBackend.mk st.maxSize
          (memSetManyLoop st.maxSize (ttl.map (fun t => now + t)) mapping st.cache)
          st.stopCleanup
        = seqSetMany st now mapping ttl := by
  intro mapping
  induction mapping with
  | nil => exact fun st _ => rfl
  | cons kv rest ih =>
    intro st hm
    obtain ⟨k, v⟩ := kv
    have hset : (memSet st now k v ttl false).1
        = MemoryBackend.mk st.maxSize
            (dictAssign (touchOrEvict st k) k (v, ttl.map (fun t => now + t)))
            st.stopCleanup := by
      rw [memSet_maxSize_ne_zero hm]
    rw [seqSetMany, hset, memSetManyLoop, setMany_step_eq st k v _]
    exact ih (MemoryBackend.mk st.maxSize
      (dictAssign (touchOrEvict st k) k (v, ttl.map (fun t => now + t)))
      st.stopCleanup) hm

theorem containsKey_eraseKey_ne {c : Cache} {k k' : String} (h : ¬k' = k) :
    containsKey (eraseKey c k) k' = containsKey c k' := by
  rw [containsKey_eq_isSome, containsKey_eq_isSome, lookupEntry_eraseKey_ne c h]

theorem deleteMany_count :
    ∀ (keys : List String) (st : MemoryBackend), keys.Nodup →
      (memDeleteMany st keys).1
        = (keys.filter (fun x => containsKey st.cache x)).length := by
  intro keys
  induction keys with
  | nil => exact fun st _ => rfl
  | cons k rest ih =>
    intro st hnd
    obtain ⟨hknotin, hndrest⟩ := List.nodup_cons.mp hnd
    by_cases hc : containsKey st.cache k
    · have hdel : memDelete st k = ({ st with cache := eraseKey st.cache k }, true) := by
        simp [memDelete, hc]
      have hcong : rest.filter (fun x => containsKey (eraseKey st.cache k) x)
          = rest.filter (fun x => containsKey st.cache x) := by
        apply List.filter_congr
        intro a ha
        exact containsKey_eraseKey_ne (fun hh => hknotin (hh ▸ ha))
      have hr := ih { st with cache := eraseKey st.cache k } hndrest
      rw [memDeleteMany, hdel, List.filter_cons]
      simp only [hc, if_true]
      rw [List.length_cons]
      simp only [← hcong]
      exact congrArg (· + 1) hr
    · have hc' : containsKey st.cache k = false := by simpa using hc
      have hdel : memDelete st k = (st, false) := by
        simp [memDelete, hc']
      rw [memDeleteMany, hdel, List.filter_cons]
      simp only [hc', Bool.false_eq_true, if_false]
      exact ih st hndrest

/-- Claim C8, counterexample.  The claim states that `get_many` equals
the sequential application of `get` (returning exactly the present live
keys) and that `delete_many` returns the count of keys that were live
and removed.  Concretely: with `"k"` live and storing `None`, the memory
engine's batched `get_many(["k"])` returns `{"k": None}` while the
sequential application returns `{}` — the two differ, and neither
matches "exactly the present keys with their values".  And with `"k"`
physically present but expired (at `t = 2`, `get` returns absent),
`delete_many(["k"])` still returns 1 although no live key was removed. -/
theorem claim8_counterexample :
    ¬memGetMany noneDemo 0 ["k"] = seqGetMany noneDemo 0 ["k"] []
    ∧ (memGetMany noneDemo 0 ["k"]).1 = [("k", PyVal.pynone)]
    ∧ (seqGetMany noneDemo 0 ["k"] []).1 = []
    ∧ (memGet expiredDemo 2 "k").1 = PyVal.pynone
    ∧ (memDeleteMany expiredDemo ["k"]).1 = 1 := by
  refine ⟨?_, by decide, by decide, by decide, by decide⟩
  intro h
  have := congrArg (fun p => p.1) h
  simp only at this
  exact absurd this (by decide)

/-- Claim C8, amended (memory engine): `get_many` equals the sequential
application of single-key `get` — result mapping and final state —
provided no live entry stores the value `None` (on live stored `None`
the batched version returns the key mapped to `None` while the
sequential loop omits it); `set_many` is observably identical to the
sequential application of single-key `set` with the given ttl, in every
state; and `delete_many` (the inherited sequential loop) returns the
count of *physically stored* keys removed — expired, unswept entries
are counted even though they were not live. -/
theorem claim8_amended (st : MemoryBackend) (now : Nat)
    (keys dkeys : List String) (mapping : List (String × PyVal))
    (ttl : Option Nat) (hnone : noLiveNone st.cache now)
    (hnd : dkeys.Nodup) :
    memGetMany st now keys = seqGetMany st now keys []
    ∧ memSetMany st now mapping ttl = seqSetMany st now mapping ttl
    ∧ (memDeleteMany st dkeys).1
        = (dkeys.filter (fun x => containsKey st.cache x)).length := by
  refine ⟨?_, ?_, deleteMany_count dkeys st hnd⟩
  · have hloop := getManyLoop_eq_seq now keys [] st hnone
    obtain ⟨hm, hs⟩ := seqGetMany_fields now keys [] st
    have hstate : ({ st with cache := (seqGetMany st now keys []).2.cache }
        : MemoryBackend) = (seqGetMany st now keys []).2 := by
      have : MemoryBackend.mk st.maxSize (seqGetMany st now keys []).2.cache
          st.stopCleanup
          = MemoryBackend.mk (seqGetMany st now keys []).2.maxSize
            (seqGetMany st now keys []).2.cache
            (seqGetMany st now keys []).2.stopCleanup := by
        rw [hm, hs]
      exact this
    have hdef : memGetMany st now keys
        = ((memGetManyLoop now keys [] st.cache).1,
           { st with cache := (memGetManyLoop now keys [] st.cache).2 }) := rfl
    rw [hdef, hloop]
    rw [hstate]
  · by_cases hm : st.maxSize = 0
    · have h1 : memSetMany st now mapping ttl = st := by
        simp [memSetMany, hm]
      rw [h1, seqSetMany_zero now ttl mapping st hm]
    · have hbne : (st.maxSize == 0) = false := by simpa using hm
      have h1 : memSetMany st now mapping ttl
          = MemoryBackend.mk st.maxSize
              (memSetManyLoop st.maxSize (ttl.map (fun t => now + t)) mapping st.cache)
              st.stopCleanup := by
        simp [memSetMany, hbne]
      rw [h1, setManyLoop_eq_seq now ttl mapping st hm]

/-- Claim C8, witness: the amended theorem applied to the two-entry
state (live `"a" = 1`, and `"x"` expired at the call time 2) with a
batch get over `["a", "missing"]`, a batch set of `{"b": 2}`, and a
batch delete of `["a", "x", "missing"]` (counting 2: the live `"a"` and
the expired `"x"`). -/
theorem claim8_witness :
    memGetMany batchDemo 2 ["a", "missing"] = seqGetMany batchDemo 2 ["a", "missing"] []
    ∧ memSetMany batchDemo 2 [("b", PyVal.pyint 2)] (some 5)
        = seqSetMany batchDemo 2 [("b", PyVal.pyint 2)] (some 5)
    ∧ (memDeleteMany batchDemo ["a", "x", "missing"]).1
        = (["a", "x", "missing"].filter
            (fun x => containsKey batchDemo.cache x)).length :=
  claim8_amended batchDemo 2 ["a", "missing"] ["a", "x", "missing"]
    [("b", PyVal.pyint 2)] (some 5)
    (noLiveNone_of_all batchDemo.cache 2 (by decide))
    (by decide)

end Symphra
